import Mathlib

set_option linter.unusedSectionVars false

/-
Verification of the generic Monte Carlo Tree Search engine of
mcts-tic-tac-toe (`mcts.py`), shallowly embedded in Lean 4.

Embedding conventions:
* A game model (the `MCTSNode` capability set) is a `Game S`: `findChildren`
  returns the successor set as a list recording the set's iteration order,
  `findRandomChild` is a fixed sampler standing in for the random successor
  choice, `isTerminal` is the terminal test, `reward` the terminal reward.
* The engine's statistics store (`self.Q`, `self.N`, `self.children`) is an
  `Engine S`: `Q` and `N` are total maps with the defaultdicts' implicit
  zero default, `children` is a partial map (a key is present iff the state
  was expanded).
* Python exceptions are modelled with `Except Err`; the two unbounded
  `while` loops (`_select`, the simulation loop) take explicit fuel and
  return `none` when it runs out (or when an inner exception propagates).
* Rewards are rationals; the UCT score, which uses `math.log` and
  `math.sqrt`, lives in `ℝ`.
-/

namespace MCTS

/-- The capability set consumed by the engine (class `MCTSNode`): successor
enumeration (with the set's iteration order), random successor sampling,
terminal test and terminal reward. -/
structure Game (S : Type) where
  findChildren : S → List S
  findRandomChild : S → S
  isTerminal : S → Bool
  reward : S → ℚ

/-- The statistics store of one engine instance (`MCTS.__init__`): total
reward `Q` and visit count `N` (absent keys read as zero, as with the
defaultdicts), and the memoized successor sets `children` (a key is present
iff the state was expanded). -/
structure Engine (S : Type) where
  Q : S → ℚ
  N : S → ℕ
  children : S → Option (List S)

/-- A freshly constructed engine: empty statistics store. -/
def Engine.init {S : Type} : Engine S :=
  { Q := fun _ => 0, N := fun _ => 0, children := fun _ => none }

/-- The Python exceptions the reference implementation can raise. -/
inductive Err
  | keyError
  | assertionError
  | valueError
  | zeroDivisionError
  | runtimeError
  deriving DecidableEq

variable {S : Type} [DecidableEq S]

/-- Python `max(best :: rest, key)`: scan left to right, replacing the
current best only on a strictly greater key, so the first maximal element
wins. -/
def pymaxKey {α : Type} [LinearOrder α] (key : S → α) : S → List S → S
  | best, [] => best
  | best, y :: ys => pymaxKey key (if key best < key y then y else best) ys

theorem pymaxKey_mem {α : Type} [LinearOrder α] (key : S → α) :
    ∀ (l : List S) (x : S), pymaxKey key x l ∈ x :: l := by
  intro l
  induction l with
  | nil => intro x; simp [pymaxKey]
  | cons y ys ih =>
      intro x
      simp only [pymaxKey]
      by_cases h : key x < key y
      · simp only [if_pos h]
        exact List.mem_cons_of_mem x (ih y)
      · simp only [if_neg h]
        rcases List.mem_cons.mp (ih x) with h1 | h1
        · rw [h1]
          exact List.mem_cons_self x (y :: ys)
        · exact List.mem_cons_of_mem x (List.mem_cons_of_mem y h1)

theorem pymaxKey_le {α : Type} [LinearOrder α] (key : S → α) :
    ∀ (l : List S) (x z : S), z ∈ x :: l → key z ≤ key (pymaxKey key x l) := by
  intro l
  induction l with
  | nil =>
      intro x z hz
      rcases List.mem_cons.mp hz with h | h
      · exact h ▸ le_refl _
      · exact absurd h (List.not_mem_nil z)
  | cons y ys ih =>
      intro x z hz
      simp only [pymaxKey]
      have hb : key x ≤ key (if key x < key y then y else x) ∧
          key y ≤ key (if key x < key y then y else x) := by
        by_cases h : key x < key y
        · simp only [if_pos h]
          exact ⟨le_of_lt h, le_refl _⟩
        · simp only [if_neg h]
          exact ⟨le_refl _, le_of_not_lt h⟩
      have hhead : key (if key x < key y then y else x) ≤
          key (pymaxKey key (if key x < key y then y else x) ys) :=
        ih _ _ (List.mem_cons_self _ ys)
      rcases List.mem_cons.mp hz with h1 | h1
      · subst h1
        exact le_trans hb.1 hhead
      · rcases List.mem_cons.mp h1 with h2 | h2
        · subst h2
          exact le_trans hb.2 hhead
        · exact ih _ z (List.mem_cons_of_mem _ h2)

/-- The inner `score` function of `MCTS.choose`: average reward, with
`float("-inf")` (modelled as `⊥`) for unvisited successors. -/
def chooseScore (e : Engine S) (n : S) : WithBot ℚ :=
  if e.N n = 0 then ⊥ else ((e.Q n / (e.N n : ℚ) : ℚ) : WithBot ℚ)

/-- Model of `MCTS.choose`: raise on a terminal node, return a random child of an
unexplored node, otherwise the stored child with the highest average reward
(Python's `max` raises `ValueError` on an empty set). -/
def choose (g : Game S) (e : Engine S) (node : S) : Except Err S :=
  if g.isTerminal node then .error .runtimeError
  else
    match e.children node with
    | none => .ok (g.findRandomChild node)
    | some cs =>
        match cs with
        | [] => .error .valueError
        | c :: rest => .ok (pymaxKey (chooseScore e) c rest)

/-- The `uct` score of `MCTS._uct_select`:
`Q[n]/N[n] + sqrt(log(N[node]) / N[n])`. -/
noncomputable def uctKey (e : Engine S) (node n : S) : ℝ :=
  (e.Q n : ℝ) / (e.N n : ℝ) + Real.sqrt (Real.log (e.N node : ℝ) / (e.N n : ℝ))

/-- Model of `MCTS._uct_select` with the exceptions the reference can raise: a
`KeyError` when `node` itself was never expanded (`self.children[node]`
inside `_all_expanded`), an `AssertionError` when some stored child is not
expanded (`assert(self._all_expanded(node))`), a `ValueError` from
`math.log(0)` when `N[node] = 0`, a `ZeroDivisionError` when some child has
`N = 0`, and a `ValueError` from `max` on an empty children set. -/
noncomputable def uctSelect (e : Engine S) (node : S) : Except Err S :=
  match e.children node with
  | none => .error .keyError
  | some cs =>
      if cs.all (fun n => (e.children n).isSome) then
        if e.N node = 0 then .error .valueError
        else if cs.any (fun n => e.N n = 0) then .error .zeroDivisionError
        else
          match cs with
          | [] => .error .valueError
          | c :: rest => .ok (pymaxKey (uctKey e node) c rest)
      else .error .assertionError

/-- Model of `MCTS._expand`: memoize `node.find_children()` unless already present. -/
def expand (g : Game S) (e : Engine S) (node : S) : Engine S :=
  match e.children node with
  | some _ => e
  | none => { e with children := Function.update e.children node (some (g.findChildren node)) }

/-- The `while` loop of `MCTS._simulate`, with explicit fuel for the random
descent; the terminal test is checked before fuel is consumed, exactly as
the loop guard runs before each iteration. -/
def simulateLoop (g : Game S) : ℕ → S → Bool → Option ℚ
  | fuel, node, invert =>
    if g.isTerminal node then
      some (if invert then 1 - g.reward node else g.reward node)
    else
      match fuel with
      | 0 => none
      | f + 1 => simulateLoop g f (g.findRandomChild node) (!invert)

/-- Model of `MCTS._simulate`: the parity flag `invert_reward` starts `True`. -/
def simulate (g : Game S) (fuel : ℕ) (node : S) : Option ℚ :=
  simulateLoop g fuel node true

/-- One iteration body of `MCTS._backpropagate`: `N[node] += 1` and
`Q[node] += reward`. -/
def bump (e : Engine S) (node : S) (r : ℚ) : Engine S :=
  { e with
    N := Function.update e.N node (e.N node + 1)
    Q := Function.update e.Q node (e.Q node + r) }

/-- The loop of `MCTS._backpropagate` over an explicit list (the reversed
path): bump the head with the current reward, then recurse with `1 - reward`. -/
def backpropList (e : Engine S) : List S → ℚ → Engine S
  | [], _ => e
  | node :: rest, r => backpropList (bump e node r) rest (1 - r)

/-- Model of `MCTS._backpropagate`: traverse the path in reverse order. -/
def backpropagate (e : Engine S) (path : List S) (r : ℚ) : Engine S :=
  backpropList e path.reverse r

/-- The `while True` loop of `MCTS._select`, with explicit fuel and the
accumulated path: append the node; stop if it is unexplored or its stored
successor set is empty; else hand an unexplored stored successor over
(`unexplored.pop()`, modelled as the first such in iteration order), or
descend through `_uct_select`.  `none` means the fuel ran out or an
exception propagated out of `_uct_select`. -/
noncomputable def selectLoop (e : Engine S) : ℕ → S → List S → Option (List S)
  | 0, _, _ => none
  | fuel + 1, node, acc =>
    let path := acc ++ [node]
    match e.children node with
    | none => some path
    | some cs =>
        if cs = [] then some path
        else
          match cs.filter (fun c => (e.children c).isNone) with
          | c :: _ => some (path ++ [c])
          | [] =>
              match uctSelect e node with
              | .ok next => selectLoop e fuel next path
              | .error _ => none

/-- Model of `MCTS._select`, starting from an empty path. -/
noncomputable def select (e : Engine S) (fuel : ℕ) (node : S) : Option (List S) :=
  selectLoop e fuel node []

/-- Model of `MCTS.rollout`: select a path, expand its last node, simulate from it,
backpropagate the reward along the path.  `sf` and `mf` are the fuels of
the selection and simulation loops. -/
noncomputable def rolloutF (g : Game S) (sf mf : ℕ) (e : Engine S) (node : S) :
    Option (Engine S) :=
  (select e sf node).bind fun path =>
    path.getLast?.bind fun leaf =>
      (simulate g mf leaf).map fun r => backpropagate (expand g e leaf) path r

/-- Runs `k` successive `rollout(root)` calls on a freshly constructed engine. -/
noncomputable def rolloutN (g : Game S) (sf mf : ℕ) (root : S) : ℕ → Option (Engine S)
  | 0 => some Engine.init
  | k + 1 => (rolloutN g sf mf root k).bind fun e => rolloutF g sf mf e root

/-! ### Backpropagation: credited rewards -/

/-- The reward credited at distance `j` from the end of the path during one
backpropagation started with reward `r` (`j = 0` is the leaf, which is
credited the raw simulation reward; each step toward the root complements). -/
def altCredit (r : ℚ) (j : ℕ) : ℚ := if j % 2 = 0 then r else 1 - r

/-- The reward credited at position `i` (counted from the root end) of a
path of length `len` during one backpropagation started with reward `r`. -/
def creditAt (r : ℚ) (len i : ℕ) : ℚ := altCredit r (len - 1 - i)

theorem altCredit_succ (r : ℚ) (j : ℕ) :
    altCredit r (j + 1) = 1 - altCredit r j := by
  unfold altCredit
  rcases Nat.mod_two_eq_zero_or_one j with h | h
  · simp [Nat.add_mod, h]
  · simp [Nat.add_mod, h]

theorem backpropList_children :
    ∀ (l : List S) (e : Engine S) (r : ℚ), (backpropList e l r).children = e.children := by
  intro l
  induction l with
  | nil => intro e r; rfl
  | cons n rest ih => intro e r; rw [backpropList, ih]; rfl

theorem backpropList_N :
    ∀ (l : List S) (e : Engine S) (r : ℚ) (s : S),
      (backpropList e l r).N s = e.N s + l.count s := by
  intro l
  induction l with
  | nil => intro e r s; simp [backpropList]
  | cons n rest ih =>
      intro e r s
      rw [backpropList, ih]
      simp only [bump, Function.update_apply, List.count_cons, beq_iff_eq]
      by_cases h : s = n
      · subst h; simp; omega
      · have h2 : ¬ n = s := fun hh => h hh.symm
        simp [h, h2]

theorem backpropList_Q :
    ∀ (l : List S) (e : Engine S) (r : ℚ) (s : S),
      (backpropList e l r).Q s =
        e.Q s + ∑ i ∈ Finset.range l.length,
          (if l[i]? = some s then altCredit r i else 0) := by
  intro l
  induction l with
  | nil => intro e r s; simp [backpropList]
  | cons n rest ih =>
      intro e r s
      rw [backpropList, ih]
      rw [List.length_cons, Finset.sum_range_succ']
      simp only [List.getElem?_cons_succ, List.getElem?_cons_zero]
      have hshift : ∀ i, altCredit (1 - r) i = altCredit r (i + 1) := by
        intro i
        rw [altCredit_succ]
        unfold altCredit
        split <;> ring
      simp only [hshift]
      have hcr0 : altCredit r 0 = r := by simp [altCredit]
      simp only [bump, Function.update_apply, Option.some.injEq, hcr0]
      by_cases h : s = n
      · subst h; simp; ring
      · have h2 : ¬ n = s := fun hh => h hh.symm
        simp [h, h2]

theorem backpropagate_N (e : Engine S) (path : List S) (r : ℚ) (s : S) :
    (backpropagate e path r).N s = e.N s + path.count s := by
  rw [backpropagate, backpropList_N, List.count_reverse]

theorem backpropagate_children (e : Engine S) (path : List S) (r : ℚ) :
    (backpropagate e path r).children = e.children := by
  rw [backpropagate, backpropList_children]

theorem backpropagate_Q (e : Engine S) (path : List S) (r : ℚ) (s : S) :
    (backpropagate e path r).Q s =
      e.Q s + ∑ i ∈ Finset.range path.length,
        (if path[i]? = some s then creditAt r path.length i else 0) := by
  rw [backpropagate, backpropList_Q, List.length_reverse]
  congr 1
  refine ((Finset.sum_range_reflect _ path.length).symm).trans ?_
  apply Finset.sum_congr rfl
  intro i hi
  rw [Finset.mem_range] at hi
  have h1 : path.length - 1 - i < path.length := by omega
  rw [List.getElem?_reverse h1]
  have h2 : path.length - 1 - (path.length - 1 - i) = i := by omega
  rw [h2]
  rfl

/-- C1: backpropagate traverses the path in reverse order, incrementing
`N[state]` by one per occurrence and adding the credited reward
`creditAt r len i` to `Q[state]` at every position `i`, where the reward is
complemented between consecutive positions; consequently, for every
adjacent pair (parent at `i`, child at `i + 1`) of the path, the reward
credited to the parent equals `1 -` the reward credited to the child. -/
theorem claim_C1 (e : Engine S) (path : List S) (r : ℚ) (hne : path ≠ []) :
    (∀ s, (backpropagate e path r).N s = e.N s + path.count s) ∧
    (∀ s, (backpropagate e path r).Q s =
      e.Q s + ∑ i ∈ Finset.range path.length,
        (if path[i]? = some s then creditAt r path.length i else 0)) ∧
    (∀ i, i + 1 < path.length →
      creditAt r path.length i = 1 - creditAt r path.length (i + 1)) := by
  refine ⟨fun s => backpropagate_N e path r s, fun s => backpropagate_Q e path r s, ?_⟩
  intro i hi
  unfold creditAt
  have h : path.length - 1 - i = (path.length - 1 - (i + 1)) + 1 := by omega
  rw [h, altCredit_succ]

/-- Concrete instantiation of C1 on the two-state path `[0, 1]` with
reward `1`. -/
theorem claim_C1_witness :
    (([(0 : Fin 2), 1] : List (Fin 2)) ≠ []) ∧
    ((∀ s, (backpropagate (Engine.init (S := Fin 2)) [0, 1] 1).N s =
        (Engine.init (S := Fin 2)).N s + ([(0 : Fin 2), 1] : List (Fin 2)).count s) ∧
    (∀ s, (backpropagate (Engine.init (S := Fin 2)) [0, 1] 1).Q s =
      (Engine.init (S := Fin 2)).Q s + ∑ i ∈ Finset.range ([(0 : Fin 2), 1] : List (Fin 2)).length,
        (if ([(0 : Fin 2), 1] : List (Fin 2))[i]? = some s then
          creditAt 1 ([(0 : Fin 2), 1] : List (Fin 2)).length i else 0)) ∧
    (∀ i, i + 1 < ([(0 : Fin 2), 1] : List (Fin 2)).length →
      creditAt 1 ([(0 : Fin 2), 1] : List (Fin 2)).length i =
        1 - creditAt 1 ([(0 : Fin 2), 1] : List (Fin 2)).length (i + 1))) :=
  ⟨by decide, claim_C1 Engine.init [0, 1] 1 (by decide)⟩

/-! ### Concrete games for the witnesses -/

/-- A three-state chain game used by the concrete witnesses:
`0 → 1 → 2`, with `2` terminal carrying reward `1`. -/
def chainGame : Game (Fin 3) :=
  { findChildren := fun s => if s = 0 then [1] else if s = 1 then [2] else []
    findRandomChild := fun s => if s = 0 then 1 else 2
    isTerminal := fun s => decide (s = 2)
    reward := fun _ => 1 }

/-! ### C7: choose on a terminal state -/

/-- C7: `choose` called on a terminal state raises (`RuntimeError` in the
reference) instead of returning a state.  In this embedding `choose` is a
pure reader of the engine, which also reflects that the failed call leaves
the statistics store unchanged: the reference raises on its first line,
before any access to `N`, `Q` or `children`. -/
theorem claim_C7 (g : Game S) (e : Engine S) (root : S)
    (hterm : g.isTerminal root = true) :
    choose g e root = Except.error Err.runtimeError := by
  simp [choose, hterm]

/-- Concrete instantiation of C7 at the terminal chain state `2`. -/
theorem claim_C7_witness :
    chainGame.isTerminal 2 = true ∧
    choose chainGame Engine.init 2 = Except.error Err.runtimeError :=
  ⟨by decide, claim_C7 chainGame Engine.init 2 (by decide)⟩

/-! ### C2: UCT selection returns a maximizer -/

/-- C2 (amended with nonemptiness): on a state with a nonempty stored
successor set whose members are all expanded and visited, and whose own
visit count is positive, `_uct_select` returns a stored successor with
maximal UCT score `Q[c]/N[c] + sqrt(log(N[state])/N[c])`. -/
theorem claim_C2 (e : Engine S) (node : S) (cs : List S)
    (hc : e.children node = some cs)
    (hne : cs ≠ [])
    (hexp : ∀ c ∈ cs, (e.children c).isSome = true)
    (hvis : ∀ c ∈ cs, 0 < e.N c)
    (hN : 0 < e.N node) :
    ∃ c, uctSelect e node = Except.ok c ∧ c ∈ cs ∧
      ∀ c2 ∈ cs, uctKey e node c2 ≤ uctKey e node c := by
  have hall : cs.all (fun n => (e.children n).isSome) = true :=
    List.all_eq_true.mpr hexp
  have h0 : ¬ e.N node = 0 := Nat.pos_iff_ne_zero.mp hN
  have hany : (cs.any fun n => e.N n = 0) = false := by
    rw [List.any_eq_false]
    intro c hcm
    simp [Nat.pos_iff_ne_zero.mp (hvis c hcm)]
  obtain ⟨c0, rest, rfl⟩ : ∃ c0 rest, cs = c0 :: rest := by
    cases cs with
    | nil => exact absurd rfl hne
    | cons a b => exact ⟨a, b, rfl⟩
  refine ⟨pymaxKey (uctKey e node) c0 rest, ?_, pymaxKey_mem _ _ _,
    fun c2 h2 => pymaxKey_le _ _ _ _ h2⟩
  simp [uctSelect, hc, hall, h0, hany]

/-- Engine for the C2 counterexample: every state expanded with an empty
successor set and visited once. -/
def engC2 : Engine (Fin 1) :=
  { Q := fun _ => 0, N := fun _ => 1, children := fun _ => some [] }

/-- C2 counterexample: state `0` has all its (zero) successors expanded and
visited vacuously and its own visit count is positive, yet `_uct_select`
raises (`max` over an empty set is a `ValueError`) instead of returning a
maximizing successor — the claim needs the state to have at least one
successor. -/
theorem claim_C2_counterexample :
    engC2.children 0 = some [] ∧ engC2.N 0 = 1 ∧
    uctSelect engC2 0 = Except.error Err.valueError :=
  ⟨rfl, rfl, rfl⟩

/-- Engine for the C2 witness over the chain game: `0` expanded with the
single child `1`, itself expanded, both visited once. -/
def engC2w : Engine (Fin 3) :=
  { Q := fun _ => 1
    N := fun s => if s = 2 then 0 else 1
    children := fun s => if s = 0 then some [1] else if s = 1 then some [] else none }

/-- Concrete instantiation of (amended) C2: node `0` with stored successor
set `[1]`. -/
theorem claim_C2_witness :
    (engC2w.children 0 = some [1] ∧ ([(1 : Fin 3)] ≠ []) ∧
      (∀ c ∈ [(1 : Fin 3)], (engC2w.children c).isSome = true) ∧
      (∀ c ∈ [(1 : Fin 3)], 0 < engC2w.N c) ∧ 0 < engC2w.N 0) ∧
    (∃ c, uctSelect engC2w 0 = Except.ok c ∧ c ∈ [(1 : Fin 3)] ∧
      ∀ c2 ∈ [(1 : Fin 3)], uctKey engC2w 0 c2 ≤ uctKey engC2w 0 c) :=
  ⟨⟨by decide, by decide, by decide, by decide, by decide⟩,
    claim_C2 engC2w 0 [1] (by decide) (by decide) (by decide) (by decide) (by decide)⟩

/-! ### C8: UCT selection surfaces precondition violations as errors -/

/-- C8: whenever `_uct_select` is invoked on a state violating its
precondition — the state itself not expanded, some stored successor not
expanded, some stored successor with `N = 0`, or the state itself with
`N = 0` — it surfaces a fatal error (`KeyError`, `AssertionError`,
`ValueError` from `math.log(0)`, or `ZeroDivisionError`) instead of
returning a state computed from a NaN or infinite score. -/
theorem claim_C8 (e : Engine S) (node : S)
    (hvio : e.children node = none ∨
      (∃ cs, e.children node = some cs ∧ ∃ c ∈ cs, (e.children c = none ∨ e.N c = 0)) ∨
      e.N node = 0) :
    (uctSelect e node).isOk = false := by
  cases hch : e.children node with
  | none => simp [uctSelect, hch]; rfl
  | some cs =>
      by_cases hall : cs.all (fun n => (e.children n).isSome) = true
      · by_cases h0 : e.N node = 0
        · simp [uctSelect, hch, hall, h0]; rfl
        · rcases hvio with h | h | h
          · rw [hch] at h; exact absurd h (by simp)
          · obtain ⟨cs2, hcs2, c, hcm, hc⟩ := h
            rw [hch] at hcs2
            injection hcs2 with hh
            subst hh
            rcases hc with hc | hc
            · have hx := List.all_eq_true.mp hall c hcm
              rw [hc] at hx
              simp at hx
            · have hany : (cs.any fun n => e.N n = 0) = true := by
                rw [List.any_eq_true]
                exact ⟨c, hcm, by simp [hc]⟩
              simp [uctSelect, hch, hall, h0, hany]; rfl
          · exact absurd h h0
      · simp [uctSelect, hch, hall]; rfl

/-- Concrete instantiation of C8: a fresh engine, whose every state is
unexpanded. -/
theorem claim_C8_witness :
    (Engine.init (S := Fin 1)).children 0 = none ∧
    (uctSelect (Engine.init (S := Fin 1)) 0).isOk = false :=
  ⟨rfl, claim_C8 Engine.init 0 (Or.inl rfl)⟩

/-! ### C3: structure of selected paths -/

/-- Structural property of a selected path: every adjacent pair `(a, b)`
steps through the stored successor set of `a`, and the step either hands an
unexplored successor over (which ends the path) or is a UCT descent, taken
only when every stored successor of `a` is already expanded. -/
def PathSteps (e : Engine S) : List S → Prop
  | [] => True
  | [_] => True
  | a :: b :: rest =>
      (∃ cs, e.children a = some cs ∧ b ∈ cs ∧
        ((e.children b = none ∧ rest = []) ∨ (∀ c ∈ cs, (e.children c).isSome = true))) ∧
      PathSteps e (b :: rest)

theorem uctSelect_ok_mem (e : Engine S) (node next : S) (cs : List S)
    (hch : e.children node = some cs) (hu : uctSelect e node = Except.ok next) :
    next ∈ cs := by
  simp only [uctSelect, hch] at hu
  split at hu
  · split at hu
    · exact absurd hu (by simp)
    · split at hu
      · exact absurd hu (by simp)
      · split at hu
        · exact absurd hu (by simp)
        · injection hu with hu2
          rw [← hu2]
          exact pymaxKey_mem _ _ _
  · exact absurd hu (by simp)

theorem selectLoop_spec (e : Engine S) :
    ∀ (fuel : ℕ) (node : S) (acc p : List S),
      selectLoop e fuel node acc = some p →
      ∃ t, p = acc ++ node :: t ∧ PathSteps e (node :: t) ∧
        ∃ x, (node :: t).getLast? = some x ∧
          (e.children x = none ∨ e.children x = some []) := by
  intro fuel
  induction fuel with
  | zero =>
      intro node acc p h
      exact absurd h (by simp [selectLoop])
  | succ f ih =>
      intro node acc p h
      rw [selectLoop] at h
      cases hch : e.children node with
      | none =>
          rw [hch] at h
          simp only [Option.some.injEq] at h
          refine ⟨[], by rw [← h], trivial, node, rfl, Or.inl hch⟩
      | some cs =>
          rw [hch] at h
          dsimp only at h
          by_cases hcs : cs = []
          · rw [if_pos hcs] at h
            simp only [Option.some.injEq] at h
            refine ⟨[], by rw [← h], trivial, node, rfl, Or.inr (hcs ▸ hch)⟩
          · rw [if_neg hcs] at h
            cases hf : cs.filter (fun c => (e.children c).isNone) with
            | cons c l2 =>
                rw [hf] at h
                simp only [Option.some.injEq] at h
                have hcmem : c ∈ cs ∧ (e.children c).isNone = true := by
                  have : c ∈ cs.filter (fun c => (e.children c).isNone) := by
                    rw [hf]; exact List.mem_cons_self c l2
                  exact List.mem_filter.mp this
                have hcnone : e.children c = none := Option.isNone_iff_eq_none.mp hcmem.2
                refine ⟨[c], ?_, ?_, c, rfl, Or.inl hcnone⟩
                · rw [← h]; simp
                · exact ⟨⟨cs, hch, hcmem.1, Or.inl ⟨hcnone, rfl⟩⟩, trivial⟩
            | nil =>
                rw [hf] at h
                have hexp : ∀ c ∈ cs, (e.children c).isSome = true := by
                  intro c hc
                  rcases hcc : e.children c with _ | l
                  · exfalso
                    have hmem : c ∈ cs.filter (fun c => (e.children c).isNone) :=
                      List.mem_filter.mpr ⟨hc, by simp [hcc]⟩
                    rw [hf] at hmem
                    exact absurd hmem (List.not_mem_nil c)
                  · rfl
                cases hu : uctSelect e node with
                | error err => rw [hu] at h; exact absurd h (by simp)
                | ok next =>
                    rw [hu] at h
                    obtain ⟨t2, hp, hsteps, x, hlast, hx⟩ := ih next (acc ++ [node]) p h
                    refine ⟨next :: t2, ?_, ?_, x, ?_, hx⟩
                    · rw [hp]; simp
                    · exact ⟨⟨cs, hch, uctSelect_ok_mem e node next cs hch hu,
                        Or.inr hexp⟩, hsteps⟩
                    · rw [List.getLast?_cons_cons]
                      exact hlast

/-- C3: a successful `_select` from `root` returns a nonempty path that
starts at `root`, whose last element is a frontier state (unexpanded, or
expanded with an empty successor set), each of whose steps goes to a stored
successor of the previous element, and which descends past an element only
when every stored successor of that element is expanded (otherwise the step
hands an unexplored successor over and ends the path). -/
theorem claim_C3 (e : Engine S) (fuel : ℕ) (root : S) (p : List S)
    (hsel : select e fuel root = some p) :
    p ≠ [] ∧ p.head? = some root ∧
    (∃ x, p.getLast? = some x ∧
      (e.children x = none ∨ e.children x = some [])) ∧
    PathSteps e p := by
  obtain ⟨t, hp, hsteps, hlast⟩ := selectLoop_spec e fuel root [] p hsel
  rw [List.nil_append] at hp
  subst hp
  exact ⟨by simp, rfl, hlast, hsteps⟩

/-- Concrete instantiation of C3: selection from a fresh engine stops at
the unexpanded root immediately. -/
theorem claim_C3_witness :
    (select (Engine.init (S := Fin 1)) 1 0 = some [0]) ∧
    (([(0 : Fin 1)] : List (Fin 1)) ≠ [] ∧
      ([(0 : Fin 1)] : List (Fin 1)).head? = some 0 ∧
      (∃ x, ([(0 : Fin 1)] : List (Fin 1)).getLast? = some x ∧
        ((Engine.init (S := Fin 1)).children x = none ∨
          (Engine.init (S := Fin 1)).children x = some [])) ∧
      PathSteps (Engine.init (S := Fin 1)) [0]) :=
  ⟨rfl, claim_C3 Engine.init 1 0 [0] rfl⟩

/-! ### C4: choose returns a best successor -/

/-- C4: on a non-terminal root, `choose` returns `root.find_random_child()`
when the root was never expanded, and otherwise a stored successor with the
highest average reward `Q[c]/N[c]`, unvisited successors scoring `⊥`
(Python's `float("-inf")`, so they are never chosen while a visited
alternative exists); in every case the result is one of the root's
successors and differs from the root.  The hypotheses are the consumed
state contract (the random child is a successor, no state is its own
successor, a non-terminal state has a successor) and the store's
memoization invariant at the root. -/
theorem claim_C4 (g : Game S) (e : Engine S) (root : S)
    (hterm : g.isTerminal root = false)
    (hrand : g.findRandomChild root ∈ g.findChildren root)
    (hirr : root ∉ g.findChildren root)
    (hne : g.findChildren root ≠ [])
    (hwf : e.children root = none ∨ e.children root = some (g.findChildren root)) :
    ∃ c, choose g e root = Except.ok c ∧ c ∈ g.findChildren root ∧ c ≠ root ∧
      (e.children root = none → c = g.findRandomChild root) ∧
      (∀ cs, e.children root = some cs →
        (∀ c2 ∈ cs, chooseScore e c2 ≤ chooseScore e c) ∧
        ((∃ c2 ∈ cs, 0 < e.N c2) → 0 < e.N c)) := by
  rcases hwf with hw | hw
  · refine ⟨g.findRandomChild root, ?_, hrand, ?_, fun _ => rfl, ?_⟩
    · simp [choose, hterm, hw]
    · intro hc
      have h3 := hrand
      rw [hc] at h3
      exact hirr h3
    · intro cs hcs
      rw [hw] at hcs
      exact absurd hcs (by simp)
  · obtain ⟨c0, rest, hcr⟩ : ∃ c0 rest, g.findChildren root = c0 :: rest := by
      cases hgc : g.findChildren root with
      | nil => exact absurd hgc hne
      | cons a b => exact ⟨a, b, rfl⟩
    have hmem : pymaxKey (chooseScore e) c0 rest ∈ g.findChildren root := by
      rw [hcr]
      exact pymaxKey_mem _ _ _
    refine ⟨pymaxKey (chooseScore e) c0 rest, ?_, hmem, ?_, ?_, ?_⟩
    · simp [choose, hterm, hw, hcr]
    · intro hc
      have h3 := hmem
      rw [hc] at h3
      exact hirr h3
    · intro hnone
      rw [hnone] at hw
      exact absurd hw (by simp)
    · intro cs hcs
      rw [hw] at hcs
      injection hcs with h2
      subst h2
      constructor
      · intro c2 h2
        rw [hcr] at h2
        exact pymaxKey_le _ _ _ _ h2
      · rintro ⟨c2, h2, hpos⟩
        by_contra hzero
        have hz : e.N (pymaxKey (chooseScore e) c0 rest) = 0 := by omega
        have hle : chooseScore e c2 ≤ chooseScore e (pymaxKey (chooseScore e) c0 rest) := by
          rw [hcr] at h2
          exact pymaxKey_le _ _ _ _ h2
        simp only [chooseScore] at hle
        rw [if_pos hz, if_neg (Nat.pos_iff_ne_zero.mp hpos)] at hle
        exact absurd (le_bot_iff.mp hle) (by simp)

/-- Concrete instantiation of C4: expanded root `0` of the chain game with
the single stored successor `1`. -/
theorem claim_C4_witness :
    (chainGame.isTerminal 0 = false ∧
      chainGame.findRandomChild 0 ∈ chainGame.findChildren 0 ∧
      (0 : Fin 3) ∉ chainGame.findChildren 0 ∧
      chainGame.findChildren 0 ≠ [] ∧
      engC2w.children 0 = some (chainGame.findChildren 0)) ∧
    (∃ c, choose chainGame engC2w 0 = Except.ok c ∧
      c ∈ chainGame.findChildren 0 ∧ c ≠ 0 ∧
      (engC2w.children 0 = none → c = chainGame.findRandomChild 0) ∧
      (∀ cs, engC2w.children 0 = some cs →
        (∀ c2 ∈ cs, chooseScore engC2w c2 ≤ chooseScore engC2w c) ∧
        ((∃ c2 ∈ cs, 0 < engC2w.N c2) → 0 < engC2w.N c))) :=
  ⟨⟨by decide, by decide, by decide, by decide, by decide⟩,
    claim_C4 chainGame engC2w 0 (by decide) (by decide) (by decide) (by decide)
      (Or.inr (by decide))⟩

/-! ### C9: simulation terminates within the depth bound -/

/-- C9: when the game's state graph has bounded depth — witnessed by a
measure `db` that strictly decreases along every successor edge and is at
most `d` at the start state — the simulation loop reaches a terminal state
within `d` random-successor steps (fuel `d` suffices) and returns a
reward. -/
theorem claim_C9 (g : Game S) (db : S → ℕ) (d : ℕ) (root : S)
    (hrand : ∀ s, g.isTerminal s = false → g.findRandomChild s ∈ g.findChildren s)
    (hdec : ∀ s c, g.isTerminal s = false → c ∈ g.findChildren s → db c < db s)
    (hroot : db root ≤ d) :
    ∃ r, simulate g d root = some r := by
  suffices h : ∀ fuel s invert, db s ≤ fuel →
      ∃ r, simulateLoop g fuel s invert = some r from h d root true hroot
  intro fuel
  induction fuel with
  | zero =>
      intro s invert hs
      rw [simulateLoop]
      cases ht : g.isTerminal s with
      | true => exact ⟨_, by rw [if_pos rfl]⟩
      | false =>
          exfalso
          have := hdec s _ ht (hrand s ht)
          omega
  | succ f ih =>
      intro s invert hs
      rw [simulateLoop]
      cases ht : g.isTerminal s with
      | true => exact ⟨_, by rw [if_pos rfl]⟩
      | false =>
          have hlt := hdec s _ ht (hrand s ht)
          obtain ⟨r, hr⟩ := ih (g.findRandomChild s) (!invert) (by omega)
          refine ⟨r, ?_⟩
          rw [if_neg (by simp [ht])]
          exact hr

/-- The depth measure of the chain game. -/
def chainDepth : Fin 3 → ℕ := fun s => 2 - s.val

/-- Concrete instantiation of C9 on the chain game: depth bound `2` from
the root `0`. -/
theorem claim_C9_witness :
    ((∀ s, chainGame.isTerminal s = false →
        chainGame.findRandomChild s ∈ chainGame.findChildren s) ∧
      (∀ s c, chainGame.isTerminal s = false →
        c ∈ chainGame.findChildren s → chainDepth c < chainDepth s) ∧
      chainDepth 0 ≤ 2) ∧
    ∃ r, simulate chainGame 2 0 = some r :=
  ⟨⟨by decide, by decide, by decide⟩,
    claim_C9 chainGame chainDepth 2 0 (by decide) (by decide) (by decide)⟩

/-! ### Rollout structure and store invariants -/

theorem expand_N (g : Game S) (e : Engine S) (node : S) :
    (expand g e node).N = e.N := by
  cases h : e.children node <;> simp [expand, h]

theorem expand_Q (g : Game S) (e : Engine S) (node : S) :
    (expand g e node).Q = e.Q := by
  cases h : e.children node <;> simp [expand, h]

/-- Decomposition of a successful `rollout` into its four phases. -/
theorem rolloutF_eq (g : Game S) (sf mf : ℕ) (e e' : Engine S) (root : S)
    (h : rolloutF g sf mf e root = some e') :
    ∃ p leaf r, select e sf root = some p ∧ p.getLast? = some leaf ∧
      simulate g mf leaf = some r ∧
      e' = backpropagate (expand g e leaf) p r := by
  unfold rolloutF at h
  cases hsel : select e sf root with
  | none => rw [hsel] at h; exact absurd h (by simp)
  | some p =>
      rw [hsel] at h
      dsimp only [Option.bind] at h
      cases hlast : p.getLast? with
      | none => rw [hlast] at h; exact absurd h (by simp)
      | some leaf =>
          rw [hlast] at h
          dsimp only [Option.bind] at h
          cases hsim : simulate g mf leaf with
          | none => rw [hsim] at h; exact absurd h (by simp)
          | some r =>
              rw [hsim] at h
              dsimp only [Option.map] at h
              injection h with h2
              exact ⟨p, leaf, r, rfl, hlast, hsim, h2.symm⟩

/-- Memoization well-formedness of the store: every stored successor set is
the game's successor set of its key. -/
def WF (g : Game S) (e : Engine S) : Prop :=
  ∀ s l, e.children s = some l → l = g.findChildren s

theorem WF_init (g : Game S) : WF g (Engine.init (S := S)) := by
  intro s l h
  simp [Engine.init] at h

theorem WF_expand (g : Game S) (e : Engine S) (node : S) (hwf : WF g e) :
    WF g (expand g e node) := by
  intro s l h
  cases hch : e.children node with
  | some cs =>
      simp only [expand, hch] at h
      exact hwf s l h
  | none =>
      simp only [expand, hch] at h
      rw [Function.update_apply] at h
      by_cases hs : s = node
      · rw [if_pos hs] at h
        injection h with h2
        rw [← h2, hs]
      · rw [if_neg hs] at h
        exact hwf s l h

theorem WF_rolloutF (g : Game S) (sf mf : ℕ) (e e' : Engine S) (root : S)
    (hwf : WF g e) (h : rolloutF g sf mf e root = some e') : WF g e' := by
  obtain ⟨p, leaf, r, _, _, _, he⟩ := rolloutF_eq g sf mf e e' root h
  subst he
  intro s l hl
  rw [backpropagate_children] at hl
  exact WF_expand g e leaf hwf s l hl

/-- The reward-range invariant of the store: accumulated rewards are
nonnegative and bounded by the visit counts. -/
def Inv (e : Engine S) : Prop := ∀ s, 0 ≤ e.Q s ∧ e.Q s ≤ (e.N s : ℚ)

theorem Inv_init : Inv (Engine.init (S := S)) := by
  intro s
  simp [Engine.init]

theorem Inv_backpropList :
    ∀ (l : List S) (e : Engine S) (r : ℚ), Inv e → 0 ≤ r → r ≤ 1 →
      Inv (backpropList e l r) := by
  intro l
  induction l with
  | nil => intro e r he _ _; exact he
  | cons n rest ih =>
      intro e r he h0 h1
      refine ih (bump e n r) (1 - r) ?_ (by linarith) (by linarith)
      intro s
      simp only [bump, Function.update_apply]
      by_cases hs : s = n
      · rw [if_pos hs, if_pos hs]
        push_cast
        obtain ⟨a, b⟩ := he n
        constructor <;> linarith
      · rw [if_neg hs, if_neg hs]
        exact he s

/-- Any reward a successful simulation returns lies in `[0, 1]`, given that
terminal rewards do. -/
theorem simulateLoop_range (g : Game S)
    (hr : ∀ s, g.isTerminal s = true → 0 ≤ g.reward s ∧ g.reward s ≤ 1) :
    ∀ (fuel : ℕ) (s : S) (invert : Bool) (r : ℚ),
      simulateLoop g fuel s invert = some r → 0 ≤ r ∧ r ≤ 1 := by
  intro fuel
  induction fuel with
  | zero =>
      intro s invert r h
      rw [simulateLoop] at h
      by_cases ht : g.isTerminal s = true
      · rw [if_pos ht] at h
        injection h with h2
        rw [← h2]
        obtain ⟨a, b⟩ := hr s ht
        refine ⟨?_, ?_⟩ <;> cases invert <;> simp <;> linarith
      · rw [if_neg ht] at h
        exact absurd h (by simp)
  | succ f ih =>
      intro s invert r h
      rw [simulateLoop] at h
      by_cases ht : g.isTerminal s = true
      · rw [if_pos ht] at h
        injection h with h2
        rw [← h2]
        obtain ⟨a, b⟩ := hr s ht
        refine ⟨?_, ?_⟩ <;> cases invert <;> simp <;> linarith
      · rw [if_neg ht] at h
        exact ih _ _ _ h

theorem Inv_rolloutF (g : Game S)
    (hr : ∀ s, g.isTerminal s = true → 0 ≤ g.reward s ∧ g.reward s ≤ 1)
    (sf mf : ℕ) (e e' : Engine S) (root : S)
    (hi : Inv e) (h : rolloutF g sf mf e root = some e') : Inv e' := by
  obtain ⟨p, leaf, r, _, _, hsim, he⟩ := rolloutF_eq g sf mf e e' root h
  subst he
  have hrange := simulateLoop_range g hr mf leaf true r hsim
  rw [backpropagate]
  refine Inv_backpropList p.reverse (expand g e leaf) r ?_ hrange.1 hrange.2
  intro s
  rw [expand_Q, expand_N]
  exact hi s

/-- Engine states reachable from a fresh engine by `rollout` calls
(`choose` only reads the store observationally, so it contributes no
transition). -/
inductive Reachable (g : Game S) : Engine S → Prop
  | init : Reachable g Engine.init
  | step (e e' : Engine S) (root : S) (sf mf : ℕ) :
      Reachable g e → rolloutF g sf mf e root = some e' → Reachable g e'

theorem Inv_reachable (g : Game S)
    (hr : ∀ s, g.isTerminal s = true → 0 ≤ g.reward s ∧ g.reward s ≤ 1)
    (e : Engine S) (he : Reachable g e) : Inv e := by
  induction he with
  | init => exact Inv_init
  | step e1 e2 root sf mf _ h2 ih => exact Inv_rolloutF g hr sf mf e1 e2 root ih h2

/-- C5: in every engine state reachable by rollout/choose calls on a fresh
engine of a game with terminal rewards in `[0, 1]`, every state has a
nonnegative visit count, zero accumulated reward when unvisited, and an
average reward `Q[s]/N[s]` in `[0, 1]` when visited. -/
theorem claim_C5 (g : Game S) (e : Engine S)
    (hr : ∀ s, g.isTerminal s = true → 0 ≤ g.reward s ∧ g.reward s ≤ 1)
    (he : Reachable g e) (s : S) :
    0 ≤ e.N s ∧ (e.N s = 0 → e.Q s = 0) ∧
    (0 < e.N s → 0 ≤ e.Q s / (e.N s : ℚ) ∧ e.Q s / (e.N s : ℚ) ≤ 1) := by
  have hi := Inv_reachable g hr e he s
  refine ⟨Nat.zero_le _, ?_, ?_⟩
  · intro h0
    have h2 := hi.2
    rw [h0] at h2
    simp only [Nat.cast_zero] at h2
    exact le_antisymm h2 hi.1
  · intro hpos
    have hN : (0 : ℚ) < (e.N s : ℚ) := by exact_mod_cast hpos
    exact ⟨div_nonneg hi.1 (le_of_lt hN), (div_le_one hN).mpr hi.2⟩

/-- Concrete instantiation of C5 at the fresh engine of the chain game. -/
theorem claim_C5_witness :
    ((∀ s, chainGame.isTerminal s = true →
        0 ≤ chainGame.reward s ∧ chainGame.reward s ≤ 1)) ∧
    (0 ≤ (Engine.init (S := Fin 3)).N 0 ∧
      ((Engine.init (S := Fin 3)).N 0 = 0 → (Engine.init (S := Fin 3)).Q 0 = 0) ∧
      (0 < (Engine.init (S := Fin 3)).N 0 →
        0 ≤ (Engine.init (S := Fin 3)).Q 0 / ((Engine.init (S := Fin 3)).N 0 : ℚ) ∧
        (Engine.init (S := Fin 3)).Q 0 / ((Engine.init (S := Fin 3)).N 0 : ℚ) ≤ 1)) :=
  ⟨by decide, claim_C5 chainGame Engine.init (by decide) Reachable.init 0⟩

/-! ### C6: the root is visited exactly once per rollout -/

/-- States reachable from `root` through the game's successor relation. -/
inductive ReachState (g : Game S) (root : S) : S → Prop
  | refl : ReachState g root root
  | step (s c : S) : ReachState g root s → c ∈ g.findChildren s → ReachState g root c

/-- Along a selected path of a well-formed store, a rank function that
strictly decreases across successor edges of the reachable subgraph
strictly decreases below the head. -/
theorem pathSteps_rank (g : Game S) (root : S) (rank : S → ℕ)
    (hrank : ∀ s c, ReachState g root s → c ∈ g.findChildren s → rank c < rank s)
    (e : Engine S) (hwf : WF g e) :
    ∀ (p : List S) (a : S), PathSteps e (a :: p) → ReachState g root a →
      ∀ x ∈ p, rank x < rank a := by
  intro p
  induction p with
  | nil => intro a _ _ x hx; exact absurd hx (List.not_mem_nil x)
  | cons b rest ih =>
      intro a hsteps hra x hx
      simp only [PathSteps] at hsteps
      obtain ⟨⟨cs, hcs, hbcs, _⟩, hrest⟩ := hsteps
      have hcseq := hwf a cs hcs
      rw [hcseq] at hbcs
      have hrb : rank b < rank a := hrank a b hra hbcs
      have hrsb : ReachState g root b := ReachState.step a b hra hbcs
      rcases List.mem_cons.mp hx with h | h
      · rw [h]; exact hrb
      · exact lt_trans (ih b hrest hrsb x h) hrb

/-- With an acyclic reachable subgraph, a selected path contains the root
exactly once (as its head). -/
theorem select_count_root (g : Game S) (root : S) (rank : S → ℕ)
    (hrank : ∀ s c, ReachState g root s → c ∈ g.findChildren s → rank c < rank s)
    (e : Engine S) (hwf : WF g e) (fuel : ℕ) (p : List S)
    (hsel : select e fuel root = some p) : p.count root = 1 := by
  obtain ⟨t, hp, hsteps, _⟩ := selectLoop_spec e fuel root [] p hsel
  rw [List.nil_append] at hp
  subst hp
  have hnot : root ∉ t := by
    intro hmem
    exact lt_irrefl _
      (pathSteps_rank g root rank hrank e hwf t root hsteps ReachState.refl root hmem)
  rw [List.count_cons_self, List.count_eq_zero.mpr hnot]

theorem rolloutF_N_root (g : Game S) (root : S) (rank : S → ℕ)
    (hrank : ∀ s c, ReachState g root s → c ∈ g.findChildren s → rank c < rank s)
    (e e' : Engine S) (sf mf : ℕ) (hwf : WF g e)
    (h : rolloutF g sf mf e root = some e') :
    e'.N root = e.N root + 1 := by
  obtain ⟨p, leaf, r, hs, _, _, he⟩ := rolloutF_eq g sf mf e e' root h
  subst he
  rw [backpropagate_N, expand_N, select_count_root g root rank hrank e hwf sf p hs]

/-- C6: on a fresh engine over a game whose reachable subgraph from a
non-terminal `root` is acyclic (witnessed by a rank function that strictly
decreases along its successor edges, so the root occurs exactly once on
every selected path), `k` completed calls of `rollout(root)` leave
`N[root] = k`. -/
theorem claim_C6 (g : Game S) (root : S) (rank : S → ℕ) (sf mf k : ℕ) (e' : Engine S)
    (hterm : g.isTerminal root = false)
    (hrank : ∀ s c, ReachState g root s → c ∈ g.findChildren s → rank c < rank s)
    (h : rolloutN g sf mf root k = some e') :
    e'.N root = k := by
  suffices hgen : ∀ (kk : ℕ) (ek : Engine S), rolloutN g sf mf root kk = some ek →
      WF g ek ∧ ek.N root = kk from (hgen k e' h).2
  intro kk
  induction kk with
  | zero =>
      intro ek hk
      rw [rolloutN] at hk
      injection hk with h2
      rw [← h2]
      exact ⟨WF_init g, rfl⟩
  | succ kp ih =>
      intro ek hk
      rw [rolloutN] at hk
      cases hprev : rolloutN g sf mf root kp with
      | none => rw [hprev] at hk; exact absurd hk (by simp)
      | some ep =>
          rw [hprev] at hk
          dsimp only [Option.bind] at hk
          obtain ⟨hwfp, hNp⟩ := ih ep hprev
          refine ⟨WF_rolloutF g sf mf ep ek root hwfp hk, ?_⟩
          rw [rolloutF_N_root g root rank hrank ep ek sf mf hwfp hk, hNp]

/-- The engine after one rollout of the chain game from its root. -/
noncomputable def engC6 : Engine (Fin 3) :=
  (rolloutN chainGame 1 2 0 1).getD Engine.init

/-- Concrete instantiation of C6: one completed rollout of the chain game
from root `0` leaves `N[0] = 1`. -/
theorem claim_C6_witness :
    (chainGame.isTerminal 0 = false ∧
      (∀ s c, ReachState chainGame 0 s → c ∈ chainGame.findChildren s →
        chainDepth c < chainDepth s) ∧
      rolloutN chainGame 1 2 0 1 = some engC6) ∧
    engC6.N 0 = 1 := by
  have hrank : ∀ s c, ReachState chainGame 0 s → c ∈ chainGame.findChildren s →
      chainDepth c < chainDepth s := by
    have h : ∀ s c : Fin 3, c ∈ chainGame.findChildren s → chainDepth c < chainDepth s := by
      decide
    exact fun s c _ hc => h s c hc
  have hroll : rolloutN chainGame 1 2 0 1 = some engC6 := rfl
  exact ⟨⟨by decide, hrank, hroll⟩,
    claim_C6 chainGame 0 chainDepth 1 2 1 engC6 (by decide) hrank hroll⟩

/-! ### C10: rollout on a terminal root -/

/-- C10: `rollout` on a terminal root completes without error: selection
returns the single-element path `[root]`, expansion memoizes the root's
empty successor set, simulation takes zero random steps and returns
`1 - root.reward()` (the parity flag starts inverted and never toggles),
and backpropagation increments `N[root]` by one and adds `1 - root.reward()`
to `Q[root]`, leaving every other state's statistics untouched.  The
hypotheses are the contract that a terminal state has no successors and the
store's memoization invariant at the root; any selection fuel `sf + 1` and
any simulation fuel suffice. -/
theorem claim_C10 (g : Game S) (e : Engine S) (root : S) (sf mf : ℕ)
    (hterm : g.isTerminal root = true)
    (hchild : g.findChildren root = [])
    (hwf : e.children root = none ∨ e.children root = some (g.findChildren root)) :
    ∃ e', rolloutF g (sf + 1) mf e root = some e' ∧
      select e (sf + 1) root = some [root] ∧
      simulate g mf root = some (1 - g.reward root) ∧
      e'.N root = e.N root + 1 ∧
      e'.Q root = e.Q root + (1 - g.reward root) ∧
      e'.children root = some [] ∧
      (∀ s, s ≠ root → e'.N s = e.N s ∧ e'.Q s = e.Q s ∧ e'.children s = e.children s) := by
  have hsel : select e (sf + 1) root = some [root] := by
    rcases hwf with hw | hw
    · simp [select, selectLoop, hw]
    · rw [hchild] at hw
      simp [select, selectLoop, hw]
  have hsim : simulate g mf root = some (1 - g.reward root) := by
    rw [simulate, simulateLoop.eq_def]
    dsimp only
    rw [if_pos hterm]
    simp
  refine ⟨backpropagate (expand g e root) [root] (1 - g.reward root), ?_, hsel, hsim,
    ?_, ?_, ?_, ?_⟩
  · unfold rolloutF
    rw [hsel]
    dsimp only [Option.bind]
    rw [List.getLast?_singleton]
    dsimp only [Option.bind]
    rw [hsim]
    rfl
  · rw [backpropagate_N, expand_N]
    simp
  · rw [backpropagate_Q, expand_Q]
    simp [creditAt, altCredit]
  · rw [backpropagate_children]
    rcases hwf with hw | hw
    · simp [expand, hw, hchild, Function.update_apply]
    · rw [hchild] at hw
      simp [expand, hw]
  · intro s hs
    refine ⟨?_, ?_, ?_⟩
    · rw [backpropagate_N, expand_N]
      have h0 : ([root] : List S).count s = 0 := List.count_eq_zero.mpr (by simp [hs])
      rw [h0]
      omega
    · rw [backpropagate_Q, expand_Q]
      have h2 : ¬ root = s := fun hh => hs hh.symm
      simp [h2]
    · rw [backpropagate_children]
      rcases hw : e.children root with _ | l
      · simp [expand, hw, Function.update_apply, hs]
      · simp [expand, hw]

/-- Concrete instantiation of C10: a rollout from the terminal chain state
`2` on a fresh engine. -/
theorem claim_C10_witness :
    (chainGame.isTerminal 2 = true ∧ chainGame.findChildren 2 = []) ∧
    (∃ e', rolloutF chainGame 1 0 (Engine.init (S := Fin 3)) 2 = some e' ∧
      select (Engine.init (S := Fin 3)) 1 2 = some [2] ∧
      simulate chainGame 0 2 = some (1 - chainGame.reward 2) ∧
      e'.N 2 = (Engine.init (S := Fin 3)).N 2 + 1 ∧
      e'.Q 2 = (Engine.init (S := Fin 3)).Q 2 + (1 - chainGame.reward 2) ∧
      e'.children 2 = some [] ∧
      (∀ s, s ≠ 2 → e'.N s = (Engine.init (S := Fin 3)).N s ∧
        e'.Q s = (Engine.init (S := Fin 3)).Q s ∧
        e'.children s = (Engine.init (S := Fin 3)).children s)) :=
  ⟨⟨by decide, by decide⟩,
    claim_C10 chainGame Engine.init 2 0 0 (by decide) (by decide) (Or.inl rfl)⟩

end MCTS
